import Mathlib

/-!
Verification of the audio-relay core of the nova-sonic FreeSWITCH modules
(three C variants: mod_nova_sonic.c, mod_nova_sonic_v2.c, mod_nova_sonic_v3.c).

The development shallowly embeds the relevant C functions:
machine integers are modelled as Nat / Int with explicit two's-complement
wrapping where the C code can overflow, byte streams as List Nat, and the
worker loops as pure step functions on explicit state.
-/

/-! ## Two's-complement helpers

The C code computes on 32-bit `int` and stores into `int16_t` / `uint8_t`.
`toNat32 x` is the 32-bit two's-complement bit pattern of `x` (used to model
bitwise `&` on possibly negative `int` values), and `wrap16 x` is the value
obtained by storing `x` into an `int16_t` on a two's-complement machine. -/

def toNat32 (x : Int) : Nat := (x % (4294967296 : Int)).toNat

def wrap16 (x : Int) : Int := (x + 32768) % 65536 - 32768

/-! ## FrameCodec: mu-law decoder (source: mod_nova_sonic_v3.c, ulaw2linear)

    static inline int16_t ulaw2linear(uint8_t u) {
        static const int exp_lut[8] = {0, 132, 396, 924, 1980, 4092, 8316, 16764};
        u = ~u;
        int t = ((u & 0x0F) << 3) + 0x84;
        t <<= ((unsigned)u & 0x70) >> 4;
        return (u & 0x80) ? (int16_t)(0x84 - t) : (int16_t)(t - 0x84);
    }

`~u` on a `uint8_t` stored back into `uint8_t` is `u XOR 0xFF`.  All
intermediate values fit in `int` and the final value fits in `int16_t`
(|result| <= 32124), so no further wrapping is needed. -/

def exp_lut : List Int := [0, 132, 396, 924, 1980, 4092, 8316, 16764]

def ulaw2linear (u : Nat) : Int :=
  let u' : Nat := u ^^^ 0xFF
  let t : Nat := (((u' &&& 0x0F) <<< 3) + 0x84) <<< ((u' &&& 0x70) >>> 4)
  if u' &&& 0x80 ≠ 0 then 0x84 - (t : Int) else (t : Int) - 0x84

def ulaw_to_pcm16 (input : List Nat) : List Int := input.map ulaw2linear

/-- Modelled from the spec words of claim C2 (the reference definition):
with u' the bitwise inverse of u, mantissa m = u' AND 0x0F, exponent
e = (u' >> 4) AND 7, and t = ((m << 3) + 0x84) << e, the result is
0x84 - t when bit 7 of u' is set and t - 0x84 otherwise. -/
def ulaw2linear_refFormula (u : Nat) : Int :=
  let u' : Nat := u ^^^ 0xFF
  let m : Nat := u' &&& 0x0F
  let e : Nat := (u' >>> 4) &&& 7
  let t : Nat := ((m <<< 3) + 0x84) <<< e
  if u' &&& 0x80 ≠ 0 then 0x84 - (t : Int) else (t : Int) - 0x84

/-- Modelled from the spec words of claim C2 (the equivalent table form):
the magnitude is the exponent table [0,132,396,924,1980,4092,8316,16764]
indexed by e, plus the mantissa shifted into place; the sign bit of u'
selects the sign. -/
def ulaw2linear_refTable (u : Nat) : Int :=
  let u' : Nat := u ^^^ 0xFF
  let m : Nat := u' &&& 0x0F
  let e : Nat := (u' >>> 4) &&& 7
  let mag : Int := exp_lut.getD e 0 + ((m <<< (e + 3) : Nat) : Int)
  if u' &&& 0x80 ≠ 0 then -mag else mag

/-! ## FrameCodec: mu-law encoder (source: mod_nova_sonic_v3.c, linear2ulaw)

    static inline uint8_t linear2ulaw(int16_t sample) {
        const int cBias = 0x84;  // 132
        const int cClip = 32635;
        int sign = (sample >> 8) & 0x80;
        if (sign) sample = -sample;
        if (sample > cClip) sample = cClip;
        sample += cBias;
        int exponent = 7;
        for (int expMask = 0x4000; (sample & expMask) == 0 && exponent > 0; expMask >>= 1) exponent--;
        int mantissa = (sample >> ((exponent == 0) ? 4 : (exponent + 3))) & 0x0F;
        return ~(sign | (exponent << 4) | mantissa);
    }

`sample >> 8` is an arithmetic shift on `int`, i.e. floor division (Int.fdiv);
the bitwise `&` against the 32-bit two's-complement pattern is modelled via
`toNat32`.  `sample = -sample` stores the negation back into an `int16_t`,
which wraps at -32768 (modelled by `wrap16`).  The exponent search loop is
`expLoop`: it scans masks 0x4000 down to 0x100 and stops early when a bit is
found or exponent reaches 0. -/

def expLoop (bits : Nat) : Nat → Nat
  | 0 => 0
  | e + 1 => if bits &&& (1 <<< (e + 8)) = 0 then expLoop bits e else e + 1

def linear2ulaw (s : Int) : Nat :=
  let sign : Nat := toNat32 (Int.fdiv s 256) &&& 0x80
  let s1 : Int := if sign ≠ 0 then wrap16 (-s) else s
  let s2 : Int := if s1 > 32635 then 32635 else s1
  let s3 : Int := s2 + 0x84
  let e : Nat := expLoop (toNat32 s3) 7
  let shift : Nat := if e = 0 then 4 else e + 3
  let m : Nat := toNat32 (Int.fdiv s3 ((2 : Int) ^ shift)) &&& 0x0F
  (sign ||| (e <<< 4) ||| m) ^^^ 0xFF

def pcm16_to_ulaw (input : List Int) : List Nat := input.map linear2ulaw

/-- Modelled from the spec words of claim C3 (the reference definition):
take the sign of s, take the magnitude, clip the magnitude to 32635, add
the bias 0x84, find the exponent by the downward mask scan from 7, derive
the 4-bit mantissa, and return the bitwise inverse of the packed byte
(sign OR exponent<<4 OR mantissa). -/
def linear2ulaw_ref (s : Int) : Nat :=
  let sign : Nat := if s < 0 then 0x80 else 0
  let mag1 : Nat := if s.natAbs > 32635 then 32635 else s.natAbs
  let mag : Nat := mag1 + 0x84
  let e : Nat := expLoop mag 7
  let shift : Nat := if e = 0 then 4 else e + 3
  let m : Nat := (mag >>> shift) &&& 0x0F
  (sign ||| (e <<< 4) ||| m) ^^^ 0xFF

set_option maxRecDepth 4000 in
/-- Claim C2: for every 8-bit input byte u, the mu-law expansion
ulaw2linear(u) equals the reference definition (invert, extract mantissa
and exponent, t = ((m<<3)+0x84)<<e, sign select) and equivalently the
exponent-table form over [0,132,396,924,1980,4092,8316,16764]. -/
theorem c2_ulaw2linear_matches_reference (u : Nat) (hu : u < 256) :
    ulaw2linear u = ulaw2linear_refFormula u ∧
    ulaw2linear u = ulaw2linear_refTable u := by
  revert u hu
  decide

theorem c2_witness :
    (0x7F : Nat) < 256 ∧
    (ulaw2linear 0x7F = ulaw2linear_refFormula 0x7F ∧
     ulaw2linear 0x7F = ulaw2linear_refTable 0x7F) :=
  ⟨by decide, c2_ulaw2linear_matches_reference 0x7F (by decide)⟩

/-! ## Claim C3: the encoder against its reference definition

The two differ at exactly one input: s = -32768, where the C statement
`sample = -sample` stores 32768 into an `int16_t`, wrapping back to -32768,
while the reference definition takes the true magnitude 32768 (clipped to
32635).  The code returns 0x77 there, the reference returns 0x00. -/

theorem c3_counterexample :
    linear2ulaw (-32768) = 0x77 ∧ linear2ulaw_ref (-32768) = 0x00 ∧
    (0x77 : Nat) ≠ 0x00 := by
  refine ⟨by decide, by decide, by decide⟩

/-- Common packed-byte computation shared by the encoder and its reference
definition once the sign and the (non-wrapped) magnitude are fixed. -/
def packUlaw (sign : Nat) (n : Nat) : Nat :=
  let mag : Nat := (if n > 32635 then 32635 else n) + 0x84
  let e : Nat := expLoop mag 7
  let shift : Nat := if e = 0 then 4 else e + 3
  (sign ||| (e <<< 4) ||| ((mag >>> shift) &&& 0x0F)) ^^^ 0xFF

theorem linear2ulaw_ref_eq_pack (s : Int) :
    linear2ulaw_ref s = packUlaw (if s < 0 then 0x80 else 0) s.natAbs := rfl

theorem wrap16_eq_self (x : Int) (h0 : -32768 ≤ x) (h1 : x ≤ 32767) :
    wrap16 x = x := by
  unfold wrap16
  omega

theorem toNat32_coe (m : Nat) (h : m < 4294967296) : toNat32 (m : Int) = m := by
  unfold toNat32
  omega

theorem signBits_of_nonneg (s : Int) (h0 : 0 ≤ s) (h1 : s ≤ 32767) :
    toNat32 (Int.fdiv s 256) &&& 0x80 = 0 := by
  rw [Int.fdiv_eq_ediv _ (by norm_num : (0 : Int) ≤ 256)]
  have hlt : toNat32 (s / 256) < 128 := by
    unfold toNat32
    omega
  have h2 : toNat32 (s / 256) &&& 2 ^ 7 = 0 := by
    rw [Nat.and_two_pow, Nat.testBit_lt_two_pow hlt]
    rfl
  simpa using h2

theorem signBits_of_neg (s : Int) (h0 : -32768 ≤ s) (h1 : s < 0) :
    toNat32 (Int.fdiv s 256) &&& 0x80 = 128 := by
  rw [Int.fdiv_eq_ediv _ (by norm_num : (0 : Int) ≤ 256)]
  have hdiv : 4294967168 ≤ toNat32 (s / 256) ∧ toNat32 (s / 256) < 4294967296 := by
    unfold toNat32
    omega
  have hbit : (toNat32 (s / 256)).testBit 7 = true := by
    rw [Nat.testBit_to_div_mod]
    simp only [decide_eq_true_eq]
    omega
  have h2 : toNat32 (s / 256) &&& 2 ^ 7 = 128 := by
    rw [Nat.and_two_pow, hbit]
    rfl
  simpa using h2

theorem fdiv_pow_coe (m : Nat) (k : Nat) :
    Int.fdiv (m : Int) ((2 : Int) ^ k) = ((m / 2 ^ k : Nat) : Int) := by
  rw [Int.fdiv_eq_ediv _ (by positivity : (0 : Int) ≤ 2 ^ k)]
  push_cast
  rfl

theorem clip_bias_cast (n : Nat) :
    (if (n : Int) > 32635 then (32635 : Int) else (n : Int)) + 0x84 =
      (((if n > 32635 then 32635 else n) + 0x84 : Nat) : Int) := by
  by_cases hc : n > 32635
  · have : ((n : Int) > 32635) := by exact_mod_cast hc
    simp [hc, this]
  · have : ¬ ((n : Int) > 32635) := by exact_mod_cast hc
    simp [hc, this]

theorem code_pipeline_eq_pack (sign : Nat) (n : Nat) (hn : n ≤ 32767) :
    (let s3 : Int := (if (n : Int) > 32635 then (32635 : Int) else (n : Int)) + 0x84
     let e : Nat := expLoop (toNat32 s3) 7
     let shift : Nat := if e = 0 then 4 else e + 3
     (sign ||| (e <<< 4) ||| (toNat32 (Int.fdiv s3 ((2 : Int) ^ shift)) &&& 0x0F)) ^^^ 0xFF) =
    packUlaw sign n := by
  simp only [packUlaw, clip_bias_cast]
  have hmag : (if n > 32635 then 32635 else n) + 0x84 < 4294967296 := by
    split <;> omega
  rw [toNat32_coe _ hmag, fdiv_pow_coe,
      toNat32_coe _ (by exact lt_of_le_of_lt (Nat.div_le_self _ _) hmag),
      Nat.shiftRight_eq_div_pow]

theorem linear2ulaw_eq_ref (s : Int) (h0 : -32767 ≤ s) (h1 : s ≤ 32767) :
    linear2ulaw s = linear2ulaw_ref s := by
  rw [linear2ulaw_ref_eq_pack]
  by_cases hs : s < 0
  · obtain ⟨n, hn1, hn2, rfl⟩ : ∃ n : Nat, 1 ≤ n ∧ n ≤ 32767 ∧ s = -(n : Int) :=
      ⟨s.natAbs, by omega, by omega, by omega⟩
    have hsgn : toNat32 (Int.fdiv (-(n : Int)) 256) &&& 0x80 = 128 :=
      signBits_of_neg _ (by omega) hs
    have hwrap : wrap16 (-(-(n : Int))) = (n : Int) := by
      rw [neg_neg]
      exact wrap16_eq_self _ (by omega) (by omega)
    have habs : (-(n : Int)).natAbs = n := by omega
    simp only [linear2ulaw, hsgn, hwrap, habs, if_pos hs]
    simpa using code_pipeline_eq_pack 128 n (by omega)
  · obtain ⟨n, hn, rfl⟩ : ∃ n : Nat, n ≤ 32767 ∧ s = (n : Int) :=
      ⟨s.natAbs, by omega, by omega⟩
    have hsgn : toNat32 (Int.fdiv (n : Int) 256) &&& 0x80 = 0 :=
      signBits_of_nonneg _ (by omega) (by omega)
    have habs : ((n : Int)).natAbs = n := by omega
    simp only [linear2ulaw, hsgn, habs, if_neg hs]
    simpa using code_pipeline_eq_pack 0 n (by omega)

set_option maxRecDepth 2000 in
/-- Claim C3 (amended): for every 16-bit signed input except -32768, the
encoder linear2ulaw(s) equals the reference definition (sign, magnitude,
clip to 32635, bias 0x84, downward exponent scan, 4-bit mantissa, bitwise
inverse of the packed byte).  At s = -32768 the code's int16_t negation
wraps and the code returns 0x77 instead of the reference's 0x00. -/
theorem c3_linear2ulaw_matches_reference (s : Int)
    (h0 : -32767 ≤ s) (h1 : s ≤ 32767) :
    linear2ulaw s = linear2ulaw_ref s :=
  linear2ulaw_eq_ref s h0 h1

set_option maxRecDepth 2000 in
theorem c3_witness :
    (-32767 : Int) ≤ -12345 ∧ (-12345 : Int) ≤ 32767 ∧
    linear2ulaw (-12345) = linear2ulaw_ref (-12345) :=
  ⟨by decide, by decide,
   c3_linear2ulaw_matches_reference (-12345) (by decide) (by decide)⟩

/-! ## Claim C4: round-trip error bound

The round trip decode(encode(s)) is analysed through the exponent/mantissa
structure of the packed byte.  `expLoop_spec` characterises the downward
mask scan; the two decode lemmas evaluate the decoder on every well-formed
packed byte; the central bound is then settled per exponent value. -/

theorem expLoop_spec (k : Nat) : ∀ v : Nat, v < 2 ^ (k + 8) →
    (expLoop v k = 0 ∧ v < 256) ∨
    (1 ≤ expLoop v k ∧ 2 ^ (expLoop v k + 7) ≤ v ∧ v < 2 ^ (expLoop v k + 8)) := by
  induction k with
  | zero =>
    intro v hv
    exact Or.inl ⟨rfl, hv⟩
  | succ k ih =>
    intro v hv
    have hvlt2 : v / 2 ^ (k + 8) < 2 := by
      rw [Nat.div_lt_iff_lt_mul (Nat.two_pow_pos _)]
      have h188 : k + 1 + 8 = (k + 8) + 1 := by omega
      rw [h188, pow_succ] at hv
      calc v < 2 ^ (k + 8) * 2 := hv
        _ = 2 * 2 ^ (k + 8) := Nat.mul_comm _ _
    rw [expLoop]
    rw [Nat.one_shiftLeft, Nat.and_two_pow]
    cases hb : v.testBit (k + 8) with
    | false =>
      have hd0 : v / 2 ^ (k + 8) = 0 := by
        rw [Nat.testBit_to_div_mod] at hb
        simp only [decide_eq_false_iff_not] at hb
        generalize hgen : v / 2 ^ (k + 8) = d at hb hvlt2 ⊢
        omega
      have hvlt : v < 2 ^ (k + 8) := by
        by_contra hge
        have h1 : 1 ≤ v / 2 ^ (k + 8) :=
          (Nat.le_div_iff_mul_le (Nat.two_pow_pos _)).mpr
            (by rw [Nat.one_mul]; omega)
        rw [hd0] at h1
        exact absurd h1 (by omega)
      simpa using ih v hvlt
    | true =>
      have hge : 2 ^ (k + 8) ≤ v := by
        rw [Nat.testBit_to_div_mod] at hb
        simp only [decide_eq_true_eq] at hb
        have hne : v / 2 ^ (k + 8) ≠ 0 := by
          intro h0
          rw [h0] at hb
          exact absurd hb (by decide)
        have h1 : 1 ≤ v / 2 ^ (k + 8) := Nat.pos_of_ne_zero hne
        have := (Nat.le_div_iff_mul_le (Nat.two_pow_pos _)).mp h1
        rwa [Nat.one_mul] at this
      have he78 : k + 1 + 7 = k + 8 := by omega
      simp only [Bool.toNat_true, Nat.one_mul]
      rw [if_neg (Nat.pos_iff_ne_zero.mp (Nat.two_pow_pos _))]
      exact Or.inr ⟨Nat.succ_le_succ (Nat.zero_le k), by rw [he78]; exact hge, hv⟩

set_option maxRecDepth 2000 in
theorem decode_pos_byte (e : Nat) (he : e < 8) (m : Nat) (hm : m < 16) :
    ulaw2linear (((e <<< 4) ||| m) ^^^ 0xFF) =
      ((((m <<< 3) + 0x84) <<< e : Nat) : Int) - 0x84 := by
  revert e he m hm
  decide

set_option maxRecDepth 2000 in
theorem decode_neg_byte (e : Nat) (he : e < 8) (m : Nat) (hm : m < 16) :
    ulaw2linear ((0x80 ||| (e <<< 4) ||| m) ^^^ 0xFF) =
      0x84 - ((((m <<< 3) + 0x84) <<< e : Nat) : Int) := by
  revert e he m hm
  decide

/-! Named stages of the packed-byte pipeline (definitionally the same as the
let-chain inside packUlaw and linear2ulaw_ref). -/

def magClip (n : Nat) : Nat := if n > 32635 then 32635 else n

def magVal (n : Nat) : Nat := magClip n + 0x84

def magE (n : Nat) : Nat := expLoop (magVal n) 7

def magShift (n : Nat) : Nat := if magE n = 0 then 4 else magE n + 3

def magM (n : Nat) : Nat := (magVal n >>> magShift n) &&& 0x0F

theorem packUlaw_eq (sign n : Nat) :
    packUlaw sign n = (sign ||| (magE n <<< 4) ||| magM n) ^^^ 0xFF := rfl

theorem magE_le (n : Nat) (hn : n ≤ 32767) : magE n ≤ 7 := by
  have hv : magVal n < 2 ^ (7 + 8) := by
    unfold magVal magClip
    split <;> omega
  rcases expLoop_spec 7 (magVal n) hv with ⟨h0, _⟩ | ⟨_, hlo, _⟩
  · unfold magE
    omega
  · by_contra hgt
    have h8 : 8 ≤ magE n := by omega
    have : 2 ^ (8 + 7) ≤ 2 ^ (magE n + 7) := Nat.pow_le_pow_right (by omega) (by omega)
    have : 2 ^ 15 ≤ magVal n := le_trans this hlo
    unfold magVal magClip at this
    revert this
    split <;> omega

theorem magM_lt (n : Nat) : magM n < 16 := by
  unfold magM
  have h15 : (15 : Nat) = 2 ^ 4 - 1 := rfl
  calc (magVal n >>> magShift n) &&& 15 = (magVal n >>> magShift n) % 2 ^ 4 := by
        rw [h15, Nat.and_pow_two_sub_one_eq_mod]
    _ < 16 := Nat.mod_lt _ (by omega)

theorem magVal_lt (n : Nat) (hn : n ≤ 32767) : magVal n < 2 ^ (7 + 8) := by
  unfold magVal magClip
  split <;> omega

theorem magVal_ge (n : Nat) : 132 ≤ magVal n := by
  unfold magVal
  omega

theorem magM_eq_mod (n : Nat) :
    magM n = magVal n >>> magShift n % 2 ^ 4 := by
  unfold magM
  have h15 : (15 : Nat) = 2 ^ 4 - 1 := rfl
  rw [h15, Nat.and_pow_two_sub_one_eq_mod]

theorem pack_decode_bound (n : Nat) (hn : n ≤ 32767) :
    (((((magM n <<< 3) + 0x84) <<< magE n : Nat) : Int) - 0x84 - (n : Int)).natAbs ≤
      8 * (1 <<< (magE n + 3)) := by
  have hv := magVal_lt n hn
  have hv132 := magVal_ge n
  rcases expLoop_spec 7 (magVal n) hv with ⟨h0, hlt⟩ | ⟨h1, hlo, hhi⟩
  · have he : magE n = 0 := h0
    have hn123 : n ≤ 123 := by
      unfold magVal magClip at hlt
      split at hlt <;> omega
    have hval : magVal n = n + 132 := by
      unfold magVal magClip
      rw [if_neg (by omega)]
    have hsh : magShift n = 4 := by
      unfold magShift
      rw [he]
      rfl
    have hm := magM_eq_mod n
    rw [hsh, Nat.shiftRight_eq_div_pow, hval] at hm
    rw [he, hm]
    simp only [Nat.shiftLeft_eq]
    push_cast
    omega
  · have hEdef : magE n = expLoop (magVal n) 7 := rfl
    rw [← hEdef] at h1 hlo hhi
    have he7 : magE n ≤ 7 := magE_le n hn
    have hsh : magShift n = magE n + 3 := by
      unfold magShift
      rw [if_neg (by omega)]
    have hm := magM_eq_mod n
    rw [hsh, Nat.shiftRight_eq_div_pow] at hm
    have hclip : magVal n = n + 132 ∨ (magVal n = 32767 ∧ 32636 ≤ n) := by
      unfold magVal magClip
      split <;> omega
    obtain ⟨E, hE⟩ : ∃ E, magE n = E := ⟨_, rfl⟩
    rw [hE] at h1 he7 hlo hhi hm ⊢
    rcases hclip with hcl | ⟨hcl, hge⟩ <;> rw [hcl] at hlo hhi hm <;> interval_cases E <;>
      rw [hm] <;> simp only [Nat.shiftLeft_eq] <;> push_cast <;> omega

/-- The mu-law quantization step at the amplitude of s: the weight of one
mantissa unit, 2^(e+3), for the exponent e that the encoder assigns to the
(clipped, biased) magnitude of s. -/
def quantStep (s : Int) : Nat := 1 <<< (magE s.natAbs + 3)

theorem c4_counterexample :
    (ulaw2linear (linear2ulaw 0) - 0).natAbs = 64 ∧ quantStep 0 = 8 ∧
    ¬ (ulaw2linear (linear2ulaw 0) - 0).natAbs ≤ 4 * quantStep 0 := by
  refine ⟨by decide, by decide, by decide⟩

/-- Claim C4 (amended): for every 16-bit PCM sample except -32768, the round
trip ulaw2linear(linear2ulaw(s)) deviates from s by at most 8 times the
quantization step at that amplitude (not 4 times: at s = 0 the deviation is
64 while the step is 8, so the factor 8 is tight; at s = -32768 the encoder's
int16_t negation wraps and the round trip returns -64, so no small multiple
of the step bounds that point). -/
theorem c4_roundtrip_bounded (s : Int) (h0 : -32767 ≤ s) (h1 : s ≤ 32767) :
    (ulaw2linear (linear2ulaw s) - s).natAbs ≤ 8 * quantStep s := by
  rw [linear2ulaw_eq_ref s h0 h1, linear2ulaw_ref_eq_pack, packUlaw_eq]
  by_cases hs : s < 0
  · rw [if_pos hs]
    rw [decode_neg_byte (magE s.natAbs)
        (by have := magE_le s.natAbs (by omega); omega)
        (magM s.natAbs) (magM_lt s.natAbs)]
    have hb := pack_decode_bound s.natAbs (by omega)
    unfold quantStep
    omega
  · rw [if_neg hs, Nat.zero_or]
    rw [decode_pos_byte (magE s.natAbs)
        (by have := magE_le s.natAbs (by omega); omega)
        (magM s.natAbs) (magM_lt s.natAbs)]
    have hb := pack_decode_bound s.natAbs (by omega)
    unfold quantStep
    omega

theorem c4_witness :
    (-32767 : Int) ≤ 1000 ∧ (1000 : Int) ≤ 32767 ∧
    (ulaw2linear (linear2ulaw 1000) - 1000).natAbs ≤ 8 * quantStep 1000 :=
  ⟨by decide, by decide, c4_roundtrip_bounded 1000 (by decide) (by decide)⟩

/-! ## WireProtocol: v3 length-prefixed receiver (source: mod_nova_sonic_v3.c,
nova_recv_thread, lines 166-236)

The receiver peeks 4 bytes (MSG_PEEK, non-consuming) and interprets them as a
big-endian u32 v.  If 0 < v < 1024 and v is not 320, the 4 bytes are consumed
as a control length prefix and v bytes follow as UTF-8 control text; otherwise
the next 320 bytes (including the 4 peeked ones) are one raw PCM16 audio
frame.  The byte stream is a List Nat; a stream shorter than a full frame
models the peer closing mid-frame, reported as closed. -/

def be32 (b0 b1 b2 b3 : Nat) : Nat :=
  (b0 <<< 24) ||| (b1 <<< 16) ||| (b2 <<< 8) ||| b3

inductive NovaFrame where
  | control (msg : List Nat)
  | audio (payload : List Nat)
  | closed
deriving DecidableEq, Repr

def readAudio320 (s : List Nat) : NovaFrame × List Nat :=
  if 320 ≤ s.length then (NovaFrame.audio (s.take 320), s.drop 320)
  else (NovaFrame.closed, [])

def readFrameLP (s : List Nat) : NovaFrame × List Nat :=
  match s with
  | b0 :: b1 :: b2 :: b3 :: rest =>
    if 0 < be32 b0 b1 b2 b3 ∧ be32 b0 b1 b2 b3 < 1024 ∧ be32 b0 b1 b2 b3 ≠ 320 then
      if be32 b0 b1 b2 b3 ≤ rest.length then
        (NovaFrame.control (rest.take (be32 b0 b1 b2 b3)),
         rest.drop (be32 b0 b1 b2 b3))
      else (NovaFrame.closed, [])
    else readAudio320 (b0 :: b1 :: b2 :: b3 :: rest)
  | _ => readAudio320 s

/-- Claim C1: in the length-prefixed sub-mode the 4 peeked bytes, read as a
big-endian u32 v, decide the frame: if 0 < v < 1024 and v is not 320 the 4
bytes are consumed as a length prefix and exactly v bytes follow as control
text; otherwise (including exactly v = 320) the next 320 bytes are one raw
audio frame, with no control parse attempted. -/
theorem c1_length_prefixed_framing (b0 b1 b2 b3 : Nat) (rest : List Nat) :
    (0 < be32 b0 b1 b2 b3 → be32 b0 b1 b2 b3 < 1024 → be32 b0 b1 b2 b3 ≠ 320 →
      be32 b0 b1 b2 b3 ≤ rest.length →
      readFrameLP (b0 :: b1 :: b2 :: b3 :: rest) =
        (NovaFrame.control (rest.take (be32 b0 b1 b2 b3)),
         rest.drop (be32 b0 b1 b2 b3))) ∧
    (¬ (0 < be32 b0 b1 b2 b3 ∧ be32 b0 b1 b2 b3 < 1024 ∧ be32 b0 b1 b2 b3 ≠ 320) →
      320 ≤ (b0 :: b1 :: b2 :: b3 :: rest).length →
      readFrameLP (b0 :: b1 :: b2 :: b3 :: rest) =
        (NovaFrame.audio ((b0 :: b1 :: b2 :: b3 :: rest).take 320),
         (b0 :: b1 :: b2 :: b3 :: rest).drop 320)) ∧
    (be32 b0 b1 b2 b3 = 320 →
      320 ≤ (b0 :: b1 :: b2 :: b3 :: rest).length →
      readFrameLP (b0 :: b1 :: b2 :: b3 :: rest) =
        (NovaFrame.audio ((b0 :: b1 :: b2 :: b3 :: rest).take 320),
         (b0 :: b1 :: b2 :: b3 :: rest).drop 320)) := by
  refine ⟨?_, ?_, ?_⟩
  · intro h1 h2 h3 h4
    rw [readFrameLP, if_pos ⟨h1, h2, h3⟩, if_pos h4]
  · intro hnot hlen
    rw [readFrameLP, if_neg hnot, readAudio320, if_pos hlen]
  · intro h320 hlen
    rw [readFrameLP, if_neg (by rw [h320]; intro hc; exact hc.2.2 rfl),
        readAudio320, if_pos hlen]

theorem c1_witness :
    readFrameLP (0 :: 0 :: 0 :: 2 :: [65, 66, 67]) =
      (NovaFrame.control [65, 66], [67]) :=
  (c1_length_prefixed_framing 0 0 0 2 [65, 66, 67]).1
    (by decide) (by decide) (by decide) (by decide)

/-! ## WireProtocol: v2 tagged receiver (source: mod_nova_sonic_v2.c,
gateway_recv_thread, lines 114-173)

One tag byte selects the frame kind: 0x01 is an audio frame whose payload the
code reads as 640 bytes (not the 320 of the spec), 0x02 is a control line read
byte-by-byte up to a newline with a 255-character cap, and any other tag is
logged and skipped.  A stream too short for the full audio payload models the
peer closing mid-frame. -/

inductive GwFrame where
  | audio (payload : List Nat)
  | control (text : List Nat)
  | unknownTag (tag : Nat)
  | closed
deriving DecidableEq, Repr

def readCtrlLine : Nat → List Nat → List Nat × List Nat
  | 0, s => ([], s)
  | _ + 1, [] => ([], [])
  | fuel + 1, b :: rest =>
    if b = 10 then ([], rest)
    else
      let p := readCtrlLine fuel rest
      (b :: p.1, p.2)

def readFrameTagged (s : List Nat) : GwFrame × List Nat :=
  match s with
  | [] => (GwFrame.closed, [])
  | tag :: rest =>
    if tag = 0x01 then
      if 640 ≤ rest.length then (GwFrame.audio (rest.take 640), rest.drop 640)
      else (GwFrame.closed, [])
    else if tag = 0x02 then
      (GwFrame.control (readCtrlLine 255 rest).1, (readCtrlLine 255 rest).2)
    else (GwFrame.unknownTag tag, rest)

set_option maxRecDepth 4000 in
theorem c5_counterexample :
    readFrameTagged (0x01 :: List.replicate 320 0) = (GwFrame.closed, []) ∧
    readFrameTagged (0x01 :: List.replicate 640 0) =
      (GwFrame.audio (List.replicate 640 0), []) ∧
    (640 : Nat) ≠ 320 := by
  refine ⟨by decide, by decide, by decide⟩

/-- Claim C5 (amended): in the tagged sub-mode an audio wire frame is the tag
byte 0x01 followed by exactly 640 bytes of PCM16 payload (not 320 as the spec
states): after reading tag 0x01 the receiver consumes exactly 640 payload
bytes, and a stream holding only 320 payload bytes after the tag is treated
as closed mid-frame, not as a complete frame. -/
theorem c5_tagged_audio_frame (rest : List Nat) (h : 640 ≤ rest.length) :
    readFrameTagged (0x01 :: rest) =
      (GwFrame.audio (rest.take 640), rest.drop 640) := by
  rw [readFrameTagged]
  simp [h]

set_option maxRecDepth 4000 in
theorem c5_witness :
    readFrameTagged (0x01 :: List.replicate 700 5) =
      (GwFrame.audio (List.replicate 640 5), List.replicate 60 5) := by
  have h := c5_tagged_audio_frame (List.replicate 700 5) (by simp)
  rw [h]
  refine congrArg₂ _ (congrArg _ ?_) ?_
  · decide
  · decide

/-! ## Control dispatch: hangup detection (source: mod_nova_sonic_v2.c lines
149-168 and mod_nova_sonic_v3.c lines 184-202)

Both receivers scan the control text with strstr: v2 looks for the plain
substring "hangup", v3 for the JSON fragment "type":"hangup" (with quotes).
On a match they hang up the channel and clear the running flag; otherwise the
session state is untouched.  strstr is modelled by the naive search
hasSubstr, proved equivalent to List.IsInfix. -/

def startsWithSeq : List Nat → List Nat → Bool
  | [], _ => true
  | _ :: _, [] => false
  | p :: ps, x :: xs => p == x && startsWithSeq ps xs

def hasSubstr (pat : List Nat) : List Nat → Bool
  | [] => startsWithSeq pat []
  | x :: xs => startsWithSeq pat (x :: xs) || hasSubstr pat xs

theorem startsWithSeq_iff (p : List Nat) : ∀ l : List Nat,
    startsWithSeq p l = true ↔ p <+: l := by
  induction p with
  | nil =>
    intro l
    simp [startsWithSeq]
  | cons a ps ih =>
    intro l
    cases l with
    | nil => simp [startsWithSeq]
    | cons b bs => simp [startsWithSeq, List.cons_prefix_cons, ih]

theorem hasSubstr_iff (p : List Nat) : ∀ l : List Nat,
    hasSubstr p l = true ↔ p <:+: l := by
  intro l
  induction l with
  | nil => simp [hasSubstr, startsWithSeq_iff]
  | cons x xs ih => simp [hasSubstr, startsWithSeq_iff, ih, List.infix_cons_iff]

/-- ASCII bytes of the substring "hangup" that v2 searches for. -/
def hangupBytes : List Nat := [104, 97, 110, 103, 117, 112]

/-- ASCII bytes of the JSON fragment (quote)type(quote):(quote)hangup(quote)
that v3 searches for. -/
def typeHangupBytes : List Nat :=
  [34, 116, 121, 112, 101, 34, 58, 34, 104, 97, 110, 103, 117, 112, 34]

structure SessFlags where
  running : Bool
  hungUp : Bool
deriving DecidableEq, Repr

def v2ControlStep (f : SessFlags) (text : List Nat) : SessFlags :=
  if hasSubstr hangupBytes text = true then { running := false, hungUp := true }
  else f

def v3ControlStep (f : SessFlags) (msg : List Nat) : SessFlags :=
  if hasSubstr typeHangupBytes msg = true then { running := false, hungUp := true }
  else f

/-- Claim C6: a received control frame triggers call termination (hangup
signalled and stop flag cleared) if and only if its text contains the
substring "hangup" (v2, plain text) respectively the substring
(quote)type(quote):(quote)hangup(quote) (v3, JSON); a non-matching control
frame leaves the session state untouched. -/
theorem c6_hangup_dispatch (t m : List Nat) :
    ((v2ControlStep ⟨true, false⟩ t).hungUp = true ∧
        (v2ControlStep ⟨true, false⟩ t).running = false ↔ hangupBytes <:+: t) ∧
    (¬ hangupBytes <:+: t → v2ControlStep ⟨true, false⟩ t = ⟨true, false⟩) ∧
    ((v3ControlStep ⟨true, false⟩ m).hungUp = true ∧
        (v3ControlStep ⟨true, false⟩ m).running = false ↔ typeHangupBytes <:+: m) ∧
    (¬ typeHangupBytes <:+: m → v3ControlStep ⟨true, false⟩ m = ⟨true, false⟩) := by
  refine ⟨?_, ?_, ?_, ?_⟩
  · rw [← hasSubstr_iff]
    unfold v2ControlStep
    split <;> simp_all
  · rw [← hasSubstr_iff]
    unfold v2ControlStep
    split <;> simp_all
  · rw [← hasSubstr_iff]
    unfold v3ControlStep
    split <;> simp_all
  · rw [← hasSubstr_iff]
    unfold v3ControlStep
    split <;> simp_all

theorem c6_witness :
    v2ControlStep ⟨true, false⟩ [104, 105] = ⟨true, false⟩ ∧
    v3ControlStep ⟨true, false⟩ hangupBytes = ⟨true, false⟩ :=
  ⟨(c6_hangup_dispatch [104, 105] hangupBytes).2.1 (by decide),
   (c6_hangup_dispatch [104, 105] hangupBytes).2.2.2 (by decide)⟩

/-! ## Frame-atomic reads (source: mod_nova_sonic_v3.c, nova_recv_thread,
lines 211-236)

    size_t need = 320; size_t got = 0;
    while (got < need) {
        ssize_t r = recv(sock, audio_buffer + got, need - got, 0);
        if (r < 0)  { ... ctx->running = 0; goto END_THREAD; }
        else if (r == 0) { ... ctx->running = 0; goto END_THREAD; }
        got += r;
    }
    switch_buffer_write(output_buffer, audio_buffer, 320);

recvLoop models the loop: data is the byte sequence the peer will deliver
before closing, sched the sizes the successive recv calls deliver (each call
returns at least one byte while data remains, at most what was requested and
at most what remains; a call with no data left returns 0 = connection
closed).  The result is the assembled frame, or none when the connection
closes or errors before the frame completes.  The fuel argument only bounds
the recursion and never runs out when fuel is at least need. -/

def recvLoop : Nat → Nat → List Nat → List Nat → Option (List Nat)
  | 0, need, _, _ => if need = 0 then some [] else none
  | fuel + 1, need, data, sched =>
    if need = 0 then some []
    else
      if min (sched.headD 0 + 1) (min need data.length) = 0 then none
      else
        match recvLoop fuel (need - min (sched.headD 0 + 1) (min need data.length))
            (data.drop (min (sched.headD 0 + 1) (min need data.length)))
            sched.tail with
        | none => none
        | some more =>
          some (data.take (min (sched.headD 0 + 1) (min need data.length)) ++ more)

theorem recvLoop_some : ∀ (fuel need : Nat) (data sched : List Nat)
    (f : List Nat), recvLoop fuel need data sched = some f →
    f = data.take need ∧ need ≤ data.length := by
  intro fuel
  induction fuel with
  | zero =>
    intro need data sched f h
    rw [recvLoop] at h
    split at h
    · rename_i h0
      subst h0
      simp at h
      subst h
      simp
    · exact absurd h (by simp)
  | succ fuel ih =>
    intro need data sched f h
    rw [recvLoop] at h
    split at h
    · rename_i h0
      subst h0
      simp at h
      subst h
      simp
    · rename_i h0
      split at h
      · exact absurd h (by simp)
      · rename_i hc
        split at h
        · exact absurd h (by simp)
        · rename_i more hrec
          injection h with h
          obtain ⟨hmore, hlen⟩ := ih _ _ _ _ hrec
          have hcle : min (sched.headD 0 + 1) (min need data.length) ≤ need := by
            omega
          have hcld : min (sched.headD 0 + 1) (min need data.length) ≤ data.length := by
            omega
          have hsum : min (sched.headD 0 + 1) (min need data.length) +
              (need - min (sched.headD 0 + 1) (min need data.length)) = need := by
            omega
          constructor
          · rw [← h, hmore]
            conv_rhs => rw [← hsum, List.take_add]
          · rw [List.length_drop] at hlen
            omega

theorem recvLoop_short : ∀ (fuel need : Nat) (data sched : List Nat),
    data.length < need → recvLoop fuel need data sched = none := by
  intro fuel
  induction fuel with
  | zero =>
    intro need data sched h
    rw [recvLoop]
    rw [if_neg (by omega)]
  | succ fuel ih =>
    intro need data sched h
    rw [recvLoop]
    rw [if_neg (by omega)]
    by_cases hc : min (sched.headD 0 + 1) (min need data.length) = 0
    · rw [if_pos hc]
    · rw [if_neg hc]
      have hrec := ih (need - min (sched.headD 0 + 1) (min need data.length))
        (data.drop (min (sched.headD 0 + 1) (min need data.length))) sched.tail
        (by
          rw [List.length_drop]
          omega)
      rw [hrec]

/-- One iteration of the v3 receiver in its audio branch: a full 320-byte
frame is appended to the outbound buffer; a connection closed or I/O error
mid-frame clears the running flag and pushes nothing. -/
def recvAudioStep (outBuf : List (List Nat)) (running : Bool)
    (data sched : List Nat) : List (List Nat) × Bool :=
  match recvLoop 320 320 data sched with
  | none => (outBuf, false)
  | some f => (outBuf ++ [f], running)

/-- Claim C7: frame reads are atomic.  If the peer closes before a full
320-byte audio frame arrived (for example after 100 of 320 bytes), the
receiver reports the closed condition, clears the running flag and pushes
nothing; any frame the loop does return is exactly the next 320 bytes of the
stream, so every frame ever pushed to the outbound buffer has length 320. -/
theorem c7_frame_atomic_reads (outBuf : List (List Nat)) (running : Bool)
    (data sched : List Nat) :
    (data.length < 320 → recvAudioStep outBuf running data sched = (outBuf, false)) ∧
    (∀ f, recvLoop 320 320 data sched = some f →
      f = data.take 320 ∧ f.length = 320) ∧
    (∀ g, g ∈ (recvAudioStep outBuf running data sched).1 →
      g ∈ outBuf ∨ g.length = 320) := by
  refine ⟨?_, ?_, ?_⟩
  · intro hshort
    unfold recvAudioStep
    rw [recvLoop_short 320 320 data sched hshort]
  · intro f hf
    obtain ⟨hval, hlen⟩ := recvLoop_some 320 320 data sched f hf
    refine ⟨hval, ?_⟩
    rw [hval, List.length_take]
    omega
  · intro g hg
    unfold recvAudioStep at hg
    cases hrl : recvLoop 320 320 data sched with
    | none =>
      rw [hrl] at hg
      exact Or.inl hg
    | some f =>
      rw [hrl] at hg
      simp at hg
      rcases hg with hg | hg
      · exact Or.inl hg
      · obtain ⟨hval, hlen⟩ := recvLoop_some 320 320 data sched f hrl
        right
        rw [hg, hval, List.length_take]
        omega

theorem c7_witness :
    recvAudioStep [] true (List.replicate 100 7) [] = ([], false) :=
  (c7_frame_atomic_reads [] true (List.replicate 100 7) []).1 (by simp)

/-! ## Outbound frame queue (source: mod_nova_sonic_v2.c)

    switch_queue_create(&ctx->playback_queue, 100, pool);        // line 255
    ...
    if (switch_queue_trypush(ctx->playback_queue, queued_frame)
            != SWITCH_STATUS_SUCCESS) {
        free(queued_frame);
        switch_log_printf(..., "Playback queue full, dropping frame\n");
    }                                                            // lines 142-146

A bounded FIFO of frames: trypush appends when there is room and fails when
the queue is at capacity; on failure the receiver frees the new frame (drop
newest) and logs a warning.  trypop removes the oldest frame. -/

structure BQueue where
  items : List (List Nat)
  cap : Nat
deriving DecidableEq, Repr

def qtrypush (q : BQueue) (x : List Nat) : BQueue × Bool :=
  if q.items.length < q.cap then ({ q with items := q.items ++ [x] }, true)
  else (q, false)

def qtrypop (q : BQueue) : BQueue × Option (List Nat) :=
  match q.items with
  | [] => (q, none)
  | x :: rest => ({ q with items := rest }, some x)

/-- The v2 receiver's enqueue: trypush, and when it fails the newly arrived
frame is dropped and a warning logged (second component: warning emitted). -/
def enqueueOrDrop (q : BQueue) (x : List Nat) : BQueue × Bool :=
  ((qtrypush q x).1, !(qtrypush q x).2)

inductive QOp where
  | push (x : List Nat)
  | pop

def qstep (q : BQueue) : QOp → BQueue
  | QOp.push x => (enqueueOrDrop q x).1
  | QOp.pop => (qtrypop q).1

def qrun (cap : Nat) (ops : List QOp) : BQueue := ops.foldl qstep ⟨[], cap⟩

theorem qstep_inv (q : BQueue) (op : QOp) :
    (qstep q op).cap = q.cap ∧
    (q.items.length ≤ q.cap → (qstep q op).items.length ≤ q.cap) := by
  cases op with
  | push x =>
    have hstep : qstep q (QOp.push x) = (qtrypush q x).1 := rfl
    rw [hstep]
    unfold qtrypush
    by_cases hlt : q.items.length < q.cap
    · rw [if_pos hlt]
      refine ⟨rfl, fun _ => ?_⟩
      show (q.items ++ [x]).length ≤ q.cap
      simp
      omega
    · rw [if_neg hlt]
      exact ⟨rfl, fun h => h⟩
  | pop =>
    have hstep : qstep q QOp.pop = (qtrypop q).1 := rfl
    rw [hstep]
    unfold qtrypop
    cases hq : q.items with
    | nil =>
      refine ⟨rfl, fun _ => ?_⟩
      show q.items.length ≤ q.cap
      rw [hq]
      simp
    | cons x rest =>
      refine ⟨rfl, fun h => ?_⟩
      show rest.length ≤ q.cap
      simp at h
      omega

theorem qrun_inv (ops : List QOp) : ∀ q : BQueue, q.items.length ≤ q.cap →
    (ops.foldl qstep q).items.length ≤ (ops.foldl qstep q).cap := by
  induction ops with
  | nil => intro q h; exact h
  | cons op rest ih =>
    intro q h
    rw [List.foldl_cons]
    apply ih
    obtain ⟨hcap, hlen⟩ := qstep_inv q op
    rw [hcap]
    exact hlen h

/-- Claim C8: the outbound frame queue is bounded.  For every sequence of
pushes and pops starting from an empty queue the occupancy stays at most the
capacity, and a push onto a full queue leaves every already-queued frame (and
the whole queue) unchanged while emitting the drop warning for the newly
arriving frame. -/
theorem c8_bounded_queue (cap : Nat) (ops : List QOp) (q : BQueue) (x : List Nat) :
    ((qrun cap ops).items.length ≤ cap) ∧
    (q.items.length = q.cap → enqueueOrDrop q x = (q, true)) := by
  constructor
  · have h := qrun_inv ops ⟨[], cap⟩ (by simp)
    have hcap : (qrun cap ops).cap = cap := by
      unfold qrun
      have : ∀ (l : List QOp) (q0 : BQueue), (l.foldl qstep q0).cap = q0.cap := by
        intro l
        induction l with
        | nil => intro q0; rfl
        | cons op rest ih =>
          intro q0
          rw [List.foldl_cons, ih, (qstep_inv q0 op).1]
      exact this ops ⟨[], cap⟩
    unfold qrun at h hcap ⊢
    rw [hcap] at h
    exact h
  · intro hfull
    unfold enqueueOrDrop qtrypush
    rw [if_neg (by omega)]
    rfl

theorem c8_witness :
    (qrun 100 [QOp.push [1], QOp.push [2], QOp.pop]).items.length ≤ 100 ∧
    enqueueOrDrop ⟨List.replicate 100 [], 100⟩ [9] =
      (⟨List.replicate 100 [], 100⟩, true) := by
  have h := c8_bounded_queue 100 [QOp.push [1], QOp.push [2], QOp.pop]
    ⟨List.replicate 100 [], 100⟩ [9]
  exact ⟨h.1, h.2 (by simp)⟩

/-! ## Handshake and caller id (sources: mod_nova_sonic.c lines 317-321 and
406-408, mod_nova_sonic_v2.c lines 86-89, mod_nova_sonic_v3.c lines 301-307
and 344-348)

v1 stores the caller id as caller_id_number if present, else "Unknown", and
sends NOVA_SESSION:(id):CALLER:(caller) and a newline.  v2 builds the same
line but falls back to the lowercase "unknown".  v3 falls back to "Unknown"
and sends a JSON object.  Strings are modelled as ASCII byte lists. -/

def bytesNovaSession : List Nat := [78, 79, 86, 65, 95, 83, 69, 83, 83, 73, 79, 78, 58]

def bytesCallerSep : List Nat := [58, 67, 65, 76, 76, 69, 82, 58]

def bytesUnknownCap : List Nat := [85, 110, 107, 110, 111, 119, 110]

def bytesUnknownLow : List Nat := [117, 110, 107, 110, 111, 119, 110]

def bytesJsonPre : List Nat :=
  [123, 34, 99, 97, 108, 108, 95, 117, 117, 105, 100, 34, 58, 34]

def bytesJsonMid : List Nat := [34, 44, 34, 99, 97, 108, 108, 101, 114, 34, 58, 34]

def bytesJsonSuf : List Nat :=
  [34, 44, 34, 115, 97, 109, 112, 108, 101, 95, 114, 97, 116, 101, 34, 58, 56,
   48, 48, 48, 44, 34, 99, 104, 97, 110, 110, 101, 108, 115, 34, 58, 49, 44,
   34, 102, 111, 114, 109, 97, 116, 34, 58, 34, 80, 67, 77, 49, 54, 34, 125, 10]

def v1_handshake (sid : List Nat) (caller : Option (List Nat)) : List Nat :=
  bytesNovaSession ++ sid ++ bytesCallerSep ++
    (match caller with | some c => c | none => bytesUnknownCap) ++ [10]

def v2_handshake (uuid : List Nat) (caller : Option (List Nat)) : List Nat :=
  bytesNovaSession ++ uuid ++ bytesCallerSep ++
    (match caller with | some c => c | none => bytesUnknownLow) ++ [10]

def v3_handshake (sid : List Nat) (caller : Option (List Nat)) : List Nat :=
  bytesJsonPre ++ sid ++ bytesJsonMid ++
    (match caller with | some c => c | none => bytesUnknownCap) ++ bytesJsonSuf

theorem c9_counterexample :
    v2_handshake [] none =
      bytesNovaSession ++ bytesCallerSep ++ bytesUnknownLow ++ [10] ∧
    ¬ bytesUnknownCap <:+: v2_handshake [] none := by
  refine ⟨by decide, by decide⟩

/-- Claim C9 (amended): for a session whose channel has no caller-id number,
v1 and v3 send their handshake with the caller identifier "Unknown", but v2
sends the lowercase "unknown" (its handshake never contains "Unknown"). -/
theorem c9_unknown_caller (sid : List Nat) :
    bytesUnknownCap <:+: v1_handshake sid none ∧
    bytesUnknownCap <:+: v3_handshake sid none ∧
    bytesUnknownLow <:+: v2_handshake sid none := by
  refine ⟨⟨bytesNovaSession ++ sid ++ bytesCallerSep, [10], by simp [v1_handshake]⟩,
    ⟨bytesJsonPre ++ sid ++ bytesJsonMid, bytesJsonSuf, by simp [v3_handshake]⟩,
    ⟨bytesNovaSession ++ sid ++ bytesCallerSep, [10], by simp [v2_handshake]⟩⟩

/-! ## Playback dequeue (source: mod_nova_sonic_v3.c, dequeue_bot_frame lines
251-263, and the playback site lines 439-454)

    uint32_t available = switch_buffer_inuse(...);
    if (available >= 320) { *len = switch_buffer_read(..., buf, 320); return TRUE; }
    return FALSE;

The playback site converts a dequeued 320-byte PCM16 frame (160 samples,
host little-endian) to 160 mu-law bytes with pcm16_to_ulaw and writes a
160-byte frame to the channel. -/

def dequeue_bot_frame (buf : List Nat) : Option (List Nat) × List Nat :=
  if 320 ≤ buf.length then (some (buf.take 320), buf.drop 320) else (none, buf)

def int16OfLE (b0 b1 : Nat) : Int := wrap16 ((b0 : Int) + 256 * (b1 : Int))

def bytesToSamples : List Nat → List Int
  | [] => []
  | [_] => []
  | b0 :: b1 :: rest => int16OfLE b0 b1 :: bytesToSamples rest

def playbackFrame (f : List Nat) : List Nat := pcm16_to_ulaw (bytesToSamples f)

theorem bytesToSamples_length : ∀ l : List Nat,
    (bytesToSamples l).length = l.length / 2
  | [] => by simp [bytesToSamples]
  | [_] => by simp [bytesToSamples]
  | _ :: _ :: rest => by
    rw [bytesToSamples]
    simp only [List.length_cons, bytesToSamples_length rest]
    omega

/-- Claim C10: playback consumes the outbound buffer only in whole frames:
dequeue_bot_frame returns audio iff at least 320 bytes are buffered, then
reads exactly 320 bytes and leaves the rest; a residue of fewer than 320
bytes is left untouched; the frame written back to the caller is exactly 160
mu-law bytes. -/
theorem c10_whole_frame_playback (buf : List Nat) :
    ((dequeue_bot_frame buf).1 ≠ none ↔ 320 ≤ buf.length) ∧
    (buf.length < 320 → dequeue_bot_frame buf = (none, buf)) ∧
    (∀ f, (dequeue_bot_frame buf).1 = some f →
      f = buf.take 320 ∧ f.length = 320 ∧
      (dequeue_bot_frame buf).2 = buf.drop 320 ∧
      (playbackFrame f).length = 160) := by
  refine ⟨?_, ?_, ?_⟩
  · unfold dequeue_bot_frame
    split <;> rename_i h <;> simp [h]
  · intro hlt
    unfold dequeue_bot_frame
    rw [if_neg (by omega)]
  · intro f hf
    unfold dequeue_bot_frame at hf ⊢
    split at hf <;> rename_i h
    · simp at hf
      have hlen : f.length = 320 := by
        rw [← hf, List.length_take]
        omega
      refine ⟨hf.symm, hlen, by rw [if_pos h], ?_⟩
      unfold playbackFrame pcm16_to_ulaw
      rw [List.length_map, bytesToSamples_length, hlen]
    · exact absurd hf (by simp)

theorem c10_witness :
    dequeue_bot_frame (List.replicate 100 1) = (none, List.replicate 100 1) :=
  (c10_whole_frame_playback (List.replicate 100 1)).2.1 (by simp)
